import Mathlib

set_option maxHeartbeats 1000000

/- Shallow embedding of the bifgen repository.

   Modelled source files:
   - bifgen.py: assemble_bif (BIF encoder), the frame-timestamp sampler
     (range(offset, duration, interval)), the extraction pipeline control
     flow (extract_images / extract_images_ffmpeg) and the aspect-width
     computation in main.
   - validate_bif.py: the BIF reader used by the validator, calculate_mse
     and the per-sample validation loop.
   - bif_preview.py: the preview extractor.

   Bytes are modelled as natural numbers, byte streams as lists of
   naturals, and 32-bit little-endian fields through u32le / readU32.
   struct.pack raises on values that do not fit in 32 bits, so the
   encoder is Option-valued. External collaborators (OpenCV decoding,
   ffmpeg subprocesses, filesystem) are abstracted as environment
   records holding their observable answers. -/

def magicBytes : List Nat := [0x89, 0x42, 0x49, 0x46, 0x0d, 0x0a, 0x1a, 0x0a]

def u32le (n : Nat) : List Nat :=
  [n % 256, n / 256 % 256, n / 65536 % 256, n / 16777216 % 256]

def readU32 (s : List Nat) (p : Nat) : Nat :=
  s.getD p 0 + 256 * s.getD (p + 1) 0 + 65536 * s.getD (p + 2) 0 +
    16777216 * s.getD (p + 3) 0

/- bifgen.py assemble_bif: magic, version 0, count, 1000*interval, 44
   reserved zero bytes, then one (index, offset) pair per image followed
   by the (0xffffffff, end offset) terminator, then the payloads. -/

def bifHeader (count intervalMs : Nat) : List Nat :=
  magicBytes ++ u32le 0 ++ u32le count ++ u32le intervalMs ++ List.replicate 44 0

def bifTable : List (List Nat) → Nat → Nat → List Nat
  | [], _, cur => u32le 0xffffffff ++ u32le cur
  | img :: rest, idx, cur => u32le idx ++ u32le cur ++ bifTable rest (idx + 1) (cur + img.length)

def sumLen (l : List (List Nat)) : Nat := (l.map List.length).sum

def payloadStart (images : List (List Nat)) : Nat := 64 + 8 * (images.length + 1)

def finalOffset (images : List (List Nat)) : Nat := payloadStart images + sumLen images

def assemble_bif (images : List (List Nat)) (interval : Nat) : Option (List Nat) :=
  if images.length < 2 ^ 32 ∧ 1000 * interval < 2 ^ 32 ∧ finalOffset images < 2 ^ 32 then
    some (bifHeader images.length (1000 * interval) ++
      bifTable images 0 (payloadStart images) ++ images.flatten)
  else none

/- validate_bif.py reader: checks the magic, unpacks version / count /
   interval_ms, and with a nonzero count reads the per-image offsets and
   the terminator offset. Any short unpack raises and is caught by the
   surrounding handler, so those streams decode to none. A zero count
   returns before the table is read. -/

def parse_bif (s : List Nat) : Option (Nat × Nat × List Nat) :=
  if s.take 8 = magicBytes ∧ 20 ≤ s.length then
    if readU32 s 12 = 0 then some (0, readU32 s 16, [])
    else if 64 + 8 * readU32 s 12 + 8 ≤ s.length then
      some (readU32 s 12, readU32 s 16,
        ((List.range (readU32 s 12)).map fun i => readU32 s (64 + 8 * i + 4)) ++
          [readU32 s (64 + 8 * readU32 s 12 + 4)])
    else none
  else none

/- Payload access in validate_bif.py: seek to the entry offset and read
   next_offset - offset bytes. -/

def extractPayload (s : List Nat) (off nxt : Nat) : List Nat :=
  (s.drop off).take (nxt - off)

/- The offset sequence the reader recovers from a stream written by
   assemble_bif: one offset per image (running totals started at the end
   of the index table) followed by the terminator offset. -/

def decodedOffsets (images : List (List Nat)) : List Nat :=
  if images.length = 0 then []
  else
    ((List.range images.length).map fun k => payloadStart images + sumLen (images.take k)) ++
      [finalOffset images]

/- All (image and terminator) offset fields of the on-disk index table,
   read back from the raw stream. -/

def tableOffsets (s : List Nat) (n : Nat) : List Nat :=
  (List.range (n + 1)).map fun k => readU32 s (64 + 8 * k + 4)

/- Byte-level helper lemmas. -/

theorem length_u32le (n : Nat) : (u32le n).length = 4 := rfl

theorem readU32_u32le (n : Nat) (hn : n < 2 ^ 32) (rest : List Nat) :
    readU32 (u32le n ++ rest) 0 = n := by
  simp only [readU32, u32le, List.cons_append, List.getD_cons_zero, List.getD_cons_succ]
  omega

theorem readU32_shift (a s : List Nat) (p : Nat) :
    readU32 (a ++ s) (a.length + p) = readU32 s p := by
  have h : ∀ k : Nat, (a ++ s).getD (a.length + p + k) 0 = s.getD (p + k) 0 := by
    intro k
    rw [List.getD_append_right a s 0 (a.length + p + k) (by omega)]
    congr 1
    omega
  have h0 := h 0
  simp only [Nat.add_zero] at h0
  simp only [readU32]
  rw [h0, h 1, h 2, h 3]

theorem length_bifHeader (c i : Nat) : (bifHeader c i).length = 64 := by
  simp [bifHeader, magicBytes, u32le, List.length_append]

theorem length_bifTable (images : List (List Nat)) (idx cur : Nat) :
    (bifTable images idx cur).length = 8 * (images.length + 1) := by
  induction images generalizing idx cur with
  | nil => simp [bifTable, u32le]
  | cons img rest ih =>
    simp only [bifTable, List.length_append, length_u32le, ih, List.length_cons]
    ring

theorem sumLen_nil : sumLen [] = 0 := rfl

theorem sumLen_cons (a : List Nat) (l : List (List Nat)) :
    sumLen (a :: l) = a.length + sumLen l := by
  simp [sumLen]

theorem take_eight (c i : Nat) (R : List Nat) : ((bifHeader c i ++ R).take 8) = magicBytes := by
  have h : bifHeader c i ++ R = magicBytes ++ (u32le 0 ++ (u32le c ++ (u32le i ++
      (List.replicate 44 0 ++ R)))) := by
    simp [bifHeader, List.append_assoc]
  rw [h, List.take_append_of_le_length (by simp [magicBytes])]
  rfl

theorem readU32_bifHeader_count (c i : Nat) (hc : c < 2 ^ 32) (R : List Nat) :
    readU32 (bifHeader c i ++ R) 12 = c := by
  have h : bifHeader c i ++ R = (magicBytes ++ u32le 0) ++ (u32le c ++ (u32le i ++
      (List.replicate 44 0 ++ R))) := by
    simp [bifHeader, List.append_assoc]
  have hl : (12 : Nat) = (magicBytes ++ u32le 0).length + 0 := by
    simp [magicBytes, u32le]
  rw [h, hl, readU32_shift]
  exact readU32_u32le c hc _

theorem readU32_bifHeader_interval (c i : Nat) (hi : i < 2 ^ 32) (R : List Nat) :
    readU32 (bifHeader c i ++ R) 16 = i := by
  have h : bifHeader c i ++ R = (magicBytes ++ u32le 0 ++ u32le c) ++ (u32le i ++
      (List.replicate 44 0 ++ R)) := by
    simp [bifHeader, List.append_assoc]
  have hl : (16 : Nat) = (magicBytes ++ u32le 0 ++ u32le c).length + 0 := by
    simp [magicBytes, u32le]
  rw [h, hl, readU32_shift]
  exact readU32_u32le i hi _

theorem readU32_past_bifHeader (c i : Nat) (T : List Nat) (p : Nat) :
    readU32 (bifHeader c i ++ T) (64 + p) = readU32 T p := by
  have hl : (64 : Nat) + p = (bifHeader c i).length + p := by rw [length_bifHeader]
  rw [hl, readU32_shift]

/- Reading back the index table written by assemble_bif: entry k's
   offset field (at table position 8*k+4) holds the running offset, and
   the terminator offset field holds the end-of-payload offset. -/

theorem tableRead (images : List (List Nat)) (idx cur : Nat) (R : List Nat)
    (hcur : cur + sumLen images < 2 ^ 32) :
    (∀ k, k < images.length →
      readU32 (bifTable images idx cur ++ R) (8 * k + 4) = cur + sumLen (images.take k)) ∧
    readU32 (bifTable images idx cur ++ R) (8 * images.length + 4) = cur + sumLen images := by
  induction images generalizing idx cur with
  | nil =>
    constructor
    · intro k hk
      simp at hk
    · have h : bifTable [] idx cur ++ R = u32le 0xffffffff ++ (u32le cur ++ R) := by
        simp [bifTable, List.append_assoc]
      have hl : 8 * ([] : List (List Nat)).length + 4 = (u32le 0xffffffff).length + 0 := by
        simp [u32le]
      rw [h, hl, readU32_shift, readU32_u32le cur (by simpa [sumLen_nil] using hcur) _]
      simp [sumLen_nil]
  | cons img rest ih =>
    have hsum : sumLen (img :: rest) = img.length + sumLen rest := sumLen_cons img rest
    have hcur' : (cur + img.length) + sumLen rest < 2 ^ 32 := by omega
    have hreshape : bifTable (img :: rest) idx cur ++ R =
        (u32le idx ++ u32le cur) ++ (bifTable rest (idx + 1) (cur + img.length) ++ R) := by
      simp [bifTable, List.append_assoc]
    have hshift : ∀ p, readU32 (bifTable (img :: rest) idx cur ++ R) (8 + p) =
        readU32 (bifTable rest (idx + 1) (cur + img.length) ++ R) p := by
      intro p
      have hl : (8 : Nat) + p = (u32le idx ++ u32le cur).length + p := by simp [u32le]
      rw [hreshape, hl, readU32_shift]
    constructor
    · intro k hk
      cases k with
      | zero =>
        have h : bifTable (img :: rest) idx cur ++ R =
            u32le idx ++ (u32le cur ++ (bifTable rest (idx + 1) (cur + img.length) ++ R)) := by
          simp [bifTable, List.append_assoc]
        have hl : 8 * 0 + 4 = (u32le idx).length + 0 := by simp [u32le]
        rw [h, hl, readU32_shift, readU32_u32le cur (by omega) _]
        simp [sumLen_nil]
      | succ k' =>
        have hk' : k' < rest.length := by simpa using hk
        have hpos : 8 * (k' + 1) + 4 = 8 + (8 * k' + 4) := by omega
        rw [hpos, hshift, (ih (idx + 1) (cur + img.length) hcur').1 k' hk']
        rw [List.take_succ_cons, sumLen_cons]
        omega
    · have hpos : 8 * (img :: rest).length + 4 = 8 + (8 * rest.length + 4) := by
        simp [List.length_cons]
        omega
      rw [hpos, hshift, (ih (idx + 1) (cur + img.length) hcur').2]
      omega

/- Decoding a stream produced by assemble_bif recovers the image count,
   the interval in milliseconds and the full offset table; the stream's
   length is the terminator offset. -/

theorem parse_assemble (images : List (List Nat)) (interval : Nat) (s : List Nat)
    (henc : assemble_bif images interval = some s) :
    parse_bif s = some (images.length, 1000 * interval, decodedOffsets images) ∧
    s.length = finalOffset images := by
  rw [assemble_bif] at henc
  split at henc
  case isFalse => simp at henc
  case isTrue hcond =>
    obtain ⟨hN, hI, hF⟩ := hcond
    simp only [Option.some.injEq] at henc
    subst henc
    have hlen : (bifHeader images.length (1000 * interval) ++
        bifTable images 0 (payloadStart images) ++ images.flatten).length =
        finalOffset images := by
      rw [List.length_append, List.length_append, length_bifHeader, length_bifTable,
        List.length_flatten]
      simp [finalOffset, payloadStart, sumLen]
    refine ⟨?_, hlen⟩
    set s := bifHeader images.length (1000 * interval) ++
        bifTable images 0 (payloadStart images) ++ images.flatten with hs
    have hreshape : s = bifHeader images.length (1000 * interval) ++
        (bifTable images 0 (payloadStart images) ++ images.flatten) := by
      rw [hs, List.append_assoc]
    have htake : s.take 8 = magicBytes := by
      rw [hreshape]; exact take_eight _ _ _
    have hge : 20 ≤ s.length := by
      rw [hlen]; simp [finalOffset, payloadStart]; omega
    have hcount : readU32 s 12 = images.length := by
      rw [hreshape]; exact readU32_bifHeader_count _ _ hN _
    have hinterval : readU32 s 16 = 1000 * interval := by
      rw [hreshape]; exact readU32_bifHeader_interval _ _ hI _
    have hcurOK : payloadStart images + sumLen images < 2 ^ 32 := hF
    have htable := tableRead images 0 (payloadStart images) images.flatten hcurOK
    have hshift64 : ∀ p, readU32 s (64 + p) =
        readU32 (bifTable images 0 (payloadStart images) ++ images.flatten) p := by
      intro p
      rw [hreshape]; exact readU32_past_bifHeader _ _ _ p
    rw [parse_bif, if_pos ⟨htake, hge⟩]
    by_cases hz : images.length = 0
    · have himg : images = [] := List.length_eq_zero.mp hz
      subst himg
      rw [hcount]
      simp [decodedOffsets, hinterval]
    · rw [hcount, if_neg hz, hinterval]
      have hsize : 64 + 8 * images.length + 8 ≤ s.length := by
        rw [hlen]; simp [finalOffset, payloadStart]; omega
      rw [if_pos hsize]
      have hmap : ((List.range images.length).map fun i => readU32 s (64 + 8 * i + 4)) =
          (List.range images.length).map fun k =>
            payloadStart images + sumLen (images.take k) := by
        apply List.map_congr_left
        intro i hiR
        have hi : i < images.length := List.mem_range.mp hiR
        have hpos : 64 + 8 * i + 4 = 64 + (8 * i + 4) := by omega
        rw [hpos, hshift64, htable.1 i hi]
      have hterm : readU32 s (64 + 8 * images.length + 4) = finalOffset images := by
        have hpos : 64 + 8 * images.length + 4 = 64 + (8 * images.length + 4) := by omega
        rw [hpos, hshift64, htable.2]
        rfl
      rw [hmap, hterm]
      simp [decodedOffsets, hz]

theorem sumLen_take_succ (images : List (List Nat)) (i : Nat) (hi : i < images.length) :
    sumLen (images.take (i + 1)) = sumLen (images.take i) + (images.getD i []).length := by
  induction images generalizing i with
  | nil => simp at hi
  | cons img rest ih =>
    cases i with
    | zero => simp [sumLen_cons, sumLen_nil]
    | succ i' =>
      have hi' : i' < rest.length := by simpa using hi
      simp only [List.take_succ_cons, sumLen_cons, List.getD_cons_succ, ih i' hi']
      omega

theorem flatten_slice (images : List (List Nat)) (i : Nat) (hi : i < images.length) :
    (images.flatten.drop (sumLen (images.take i))).take (images.getD i []).length =
      images.getD i [] := by
  induction images generalizing i with
  | nil => simp at hi
  | cons img rest ih =>
    cases i with
    | zero =>
      simp only [List.take_zero, sumLen_nil, List.drop_zero, List.flatten_cons,
        List.getD_cons_zero]
      exact List.take_left img rest.flatten
    | succ i' =>
      have hi' : i' < rest.length := by simpa using hi
      simp only [List.take_succ_cons, sumLen_cons, List.flatten_cons, List.getD_cons_succ]
      rw [List.drop_append]
      exact ih i' hi'

theorem decodedOffsets_getD (images : List (List Nat)) (j : Nat) (hj : j ≤ images.length)
    (hz : images.length ≠ 0) :
    (decodedOffsets images).getD j 0 = payloadStart images + sumLen (images.take j) := by
  rw [decodedOffsets, if_neg hz]
  rcases Nat.lt_or_ge j images.length with hlt | hge
  · rw [List.getD_append _ _ 0 j (by simpa using hlt)]
    rw [List.getD_eq_getElem _ _ (by simpa using hlt)]
    simp
  · have hj' : j = images.length := by omega
    subst hj'
    rw [List.getD_append_right _ _ 0 _ (by simp)]
    simp [finalOffset]

/-- C1: for every ordered sequence of byte buffers and every interval, if
Encode (assemble_bif) produces a byte stream, then decoding that stream with
the validator's reader recovers an image count equal to the number of images,
an interval_ms equal to 1000*interval, and for every index i the payload byte
range [offset i, offset (i+1)) holds exactly image i's bytes. -/
theorem C1_roundtrip (images : List (List Nat)) (interval : Nat) (s : List Nat)
    (henc : assemble_bif images interval = some s) :
    parse_bif s = some (images.length, 1000 * interval, decodedOffsets images) ∧
    ∀ i, i < images.length →
      extractPayload s ((decodedOffsets images).getD i 0)
        ((decodedOffsets images).getD (i + 1) 0) = images.getD i [] := by
  obtain ⟨hparse, _⟩ := parse_assemble images interval s henc
  refine ⟨hparse, ?_⟩
  intro i hi
  rw [assemble_bif] at henc
  split at henc
  case isFalse => simp at henc
  case isTrue hcond =>
  simp only [Option.some.injEq] at henc
  subst henc
  have hz : images.length ≠ 0 := by omega
  rw [decodedOffsets_getD images i (le_of_lt hi) hz,
    decodedOffsets_getD images (i + 1) (by omega) hz, extractPayload]
  have htake_amt : payloadStart images + sumLen (images.take (i + 1)) -
      (payloadStart images + sumLen (images.take i)) = (images.getD i []).length := by
    rw [sumLen_take_succ images i hi]
    omega
  rw [htake_amt]
  have hplen : (bifHeader images.length (1000 * interval) ++
      bifTable images 0 (payloadStart images)).length = payloadStart images := by
    rw [List.length_append, length_bifHeader, length_bifTable]
    simp [payloadStart]
  have hgoal : payloadStart images + sumLen (images.take i) =
      (bifHeader images.length (1000 * interval) ++
        bifTable images 0 (payloadStart images)).length + sumLen (images.take i) := by
    rw [hplen]
  rw [hgoal, List.drop_append]
  exact flatten_slice images i hi

/-- Witness for C1 at a concrete input: two images [1] and [2,3], interval 1. -/
theorem C1_roundtrip_witness :
    parse_bif ((assemble_bif [[1], [2, 3]] 1).getD []) = some (2, 1000, [88, 89, 91]) ∧
    extractPayload ((assemble_bif [[1], [2, 3]] 1).getD []) 88 89 = [1] := by
  have henc : assemble_bif [[1], [2, 3]] 1 = some ((assemble_bif [[1], [2, 3]] 1).getD []) := by
    rfl
  have h := C1_roundtrip [[1], [2, 3]] 1 _ henc
  exact ⟨h.1, h.2 0 (by decide)⟩

theorem encoded_tableOffsets (images : List (List Nat)) (interval : Nat) (s : List Nat)
    (henc : assemble_bif images interval = some s) :
    ∀ k, k ≤ images.length →
      readU32 s (64 + 8 * k + 4) = payloadStart images + sumLen (images.take k) := by
  rw [assemble_bif] at henc
  split at henc
  case isFalse => simp at henc
  case isTrue hcond =>
  obtain ⟨hN, hI, hF⟩ := hcond
  simp only [Option.some.injEq] at henc
  subst henc
  intro k hk
  have hreshape : bifHeader images.length (1000 * interval) ++
      bifTable images 0 (payloadStart images) ++ images.flatten =
      bifHeader images.length (1000 * interval) ++
      (bifTable images 0 (payloadStart images) ++ images.flatten) := by
    rw [List.append_assoc]
  have htable := tableRead images 0 (payloadStart images) images.flatten hF
  have hpos : 64 + 8 * k + 4 = 64 + (8 * k + 4) := by omega
  rw [hpos, hreshape, readU32_past_bifHeader]
  rcases Nat.lt_or_ge k images.length with hlt | hge
  · exact htable.1 k hlt
  · have hk' : k = images.length := by omega
    subst hk'
    rw [htable.2, List.take_length]

theorem tableOffsets_getD (s : List Nat) (n j : Nat) (hj : j ≤ n) :
    (tableOffsets s n).getD j 0 = readU32 s (64 + 8 * j + 4) := by
  rw [tableOffsets, List.getD_eq_getElem _ _ (by simpa using by omega : j < ((List.range
    (n + 1)).map fun k => readU32 s (64 + 8 * k + 4)).length)]
  simp

/-- C2 (amended): for every image sequence, the file produced by assemble_bif
has index-table offsets (read back from the raw bytes, terminator included)
with offset[i+1] - offset[i] equal to image i's exact byte length, the first
offset equal to 64 + 8*(N+1), and the terminator offset equal to the byte
length of the whole file; and they are strictly increasing provided every
payload is nonempty — with an empty payload the offsets are only
nondecreasing (see the counterexample), which is the single change the
counterexample forces. -/
theorem C2_offset_invariant (images : List (List Nat)) (interval : Nat) (s : List Nat)
    (henc : assemble_bif images interval = some s) :
    ((∀ img ∈ images, img ≠ []) →
      List.Chain' (· < ·) (tableOffsets s images.length)) ∧
    (∀ i, i < images.length →
      (tableOffsets s images.length).getD (i + 1) 0 -
        (tableOffsets s images.length).getD i 0 = (images.getD i []).length) ∧
    (tableOffsets s images.length).getD 0 0 = 64 + 8 * (images.length + 1) ∧
    (tableOffsets s images.length).getD images.length 0 = s.length := by
  have hval := encoded_tableOffsets images interval s henc
  have hstep : ∀ i, i < images.length →
      sumLen (images.take (i + 1)) = sumLen (images.take i) + (images.getD i []).length :=
    fun i hi => sumLen_take_succ images i hi
  refine ⟨?_, ?_, ?_, ?_⟩
  · intro hne
    have hlenpos : ∀ i, i < images.length → 0 < (images.getD i []).length := by
      intro i hi
      have hmem : images.getD i [] ∈ images := by
        rw [List.getD_eq_getElem _ _ hi]
        exact List.getElem_mem hi
      have := hne _ hmem
      exact List.length_pos.mpr this
    rw [tableOffsets, List.chain'_map, List.chain'_range_succ]
    intro m hm
    rw [hval m (le_of_lt hm), hval (m + 1) hm]
    have := hstep m hm
    have := hlenpos m hm
    omega
  · intro i hi
    rw [tableOffsets_getD s images.length i (le_of_lt hi),
      tableOffsets_getD s images.length (i + 1) hi,
      hval i (le_of_lt hi), hval (i + 1) hi, hstep i hi]
    omega
  · rw [tableOffsets_getD s images.length 0 (by omega), hval 0 (by omega)]
    simp [payloadStart, sumLen_nil]
  · rw [tableOffsets_getD s images.length images.length (by omega),
      hval images.length (by omega), List.take_length,
      (parse_assemble images interval s henc).2]
    rfl

/-- Counterexample to C2 as stated: a sequence containing empty payloads is
encoded successfully, but its index-table offsets are not strictly
increasing (both images share offset 88). -/
theorem C2_counterexample :
    assemble_bif [[], []] 1 = some ((assemble_bif [[], []] 1).getD []) ∧
    tableOffsets ((assemble_bif [[], []] 1).getD []) 2 = [88, 88, 88] ∧
    ¬ List.Chain' (· < ·) (tableOffsets ((assemble_bif [[], []] 1).getD []) 2) := by
  refine ⟨rfl, by rfl, ?_⟩
  intro h
  rw [show tableOffsets ((assemble_bif [[], []] 1).getD []) 2 = [88, 88, 88] from rfl,
    List.chain'_cons] at h
  omega

/-- Witness for C2 at a concrete input: nonempty images [7] and [8,9]. -/
theorem C2_offset_invariant_witness :
    (∀ img ∈ [[7], [8, 9]], img ≠ ([] : List Nat)) ∧
    List.Chain' (· < ·) (tableOffsets ((assemble_bif [[7], [8, 9]] 2).getD []) 2) ∧
    (tableOffsets ((assemble_bif [[7], [8, 9]] 2).getD []) 2).getD 2 0 =
      ((assemble_bif [[7], [8, 9]] 2).getD []).length := by
  have henc : assemble_bif [[7], [8, 9]] 2 = some ((assemble_bif [[7], [8, 9]] 2).getD []) := rfl
  have hne : ∀ img ∈ [[7], [8, 9]], img ≠ ([] : List Nat) := by decide
  have h := C2_offset_invariant [[7], [8, 9]] 2 _ henc
  exact ⟨hne, h.1 hne, h.2.2.2⟩

/-- C3 (amended): assemble_bif succeeds exactly when every value handed to a
32-bit pack fits: the image count, the interval in milliseconds
(1000*interval) and the end-of-file offset; it fails exactly when one of
those overflows. A too-large interval alone therefore causes failure even
though no offset or count overflows (see the counterexample). -/
theorem C3_encode_failure (images : List (List Nat)) (interval : Nat) :
    ((assemble_bif images interval).isSome = true ↔
      images.length < 2 ^ 32 ∧ 1000 * interval < 2 ^ 32 ∧ finalOffset images < 2 ^ 32) ∧
    (assemble_bif images interval = none ↔
      ¬ (images.length < 2 ^ 32 ∧ 1000 * interval < 2 ^ 32 ∧ finalOffset images < 2 ^ 32)) := by
  rw [assemble_bif]
  split <;> simp_all

/-- Counterexample to C3 as stated: with zero images and interval 4294968 the
encoder fails (1000*interval does not fit in 32 bits) although the image
count and the final offset are far below the 32-bit bound, so failure is not
restricted to offset overflow from image count / cumulative payload size. -/
theorem C3_counterexample :
    assemble_bif [] 4294968 = none ∧
    ([] : List (List Nat)).length < 2 ^ 32 ∧ finalOffset [] < 2 ^ 32 := by
  exact ⟨rfl, by decide, by decide⟩

/- bif_preview.py reader: checks the magic, unpacks version / count /
   interval_ms, reads the per-image offsets, skips (reads and discards)
   the terminator pair, then cuts payloads. The size of entry i is
   offsets[i+1] - offsets[i], and for the last entry the on-disk file
   size minus its offset. A negative size raises (f.read of a negative
   count), so such streams are rejected; the monotonicity scan below
   mirrors exactly those reads. -/

def previewOffsets (s : List Nat) (n : Nat) : List Nat :=
  (List.range n).map fun i => readU32 s (64 + 8 * i + 4)

def offsetsNondecreasing : List Nat → Nat → Bool
  | [], _ => true
  | [a], limit => decide (a ≤ limit)
  | a :: b :: rest, limit => decide (a ≤ b) && offsetsNondecreasing (b :: rest) limit

def previewFrames (s : List Nat) (offs : List Nat) : List (List Nat) :=
  (offs.zip (offs.drop 1 ++ [s.length])).map fun p => (s.drop p.1).take (p.2 - p.1)

def preview_bif (s : List Nat) : Option (List (List Nat)) :=
  if s.take 8 = magicBytes ∧ 20 ≤ s.length then
    if readU32 s 12 = 0 then some []
    else if 64 + 8 * readU32 s 12 ≤ s.length then
      if offsetsNondecreasing (previewOffsets s (readU32 s 12)) s.length then
        some (previewFrames s (previewOffsets s (readU32 s 12)))
      else none
    else none
  else none

/-- C7: every byte stream whose first 8 bytes differ from the literal BIF
signature is rejected by both the validator's reader and the preview reader,
regardless of the remaining content, and no image entries are produced. -/
theorem C7_magic_rejection (s : List Nat) (h : s.take 8 ≠ magicBytes) :
    parse_bif s = none ∧ preview_bif s = none := by
  constructor
  · rw [parse_bif, if_neg]
    intro hc
    exact h hc.1
  · rw [preview_bif, if_neg]
    intro hc
    exact h hc.1

/-- Witness for C7: a three-byte stream with a wrong signature. -/
theorem C7_magic_rejection_witness :
    ([1, 2, 3] : List Nat).take 8 ≠ magicBytes ∧
    parse_bif [1, 2, 3] = none ∧ preview_bif [1, 2, 3] = none := by
  have h : ([1, 2, 3] : List Nat).take 8 ≠ magicBytes := by decide
  exact ⟨h, (C7_magic_rejection [1, 2, 3] h).1, (C7_magic_rejection [1, 2, 3] h).2⟩

/- bifgen.py extract_images samples frame timestamps with
   range(args.offset, metadata duration, args.interval): the arithmetic
   progression offset, offset+interval, ... of all values below
   duration. -/

def sample (duration interval offset : Nat) : List Nat :=
  List.range' offset ((duration - offset + (interval - 1)) / interval) interval

theorem sample_count_iff (duration interval offset k : Nat) (hi : 1 ≤ interval) :
    k < (duration - offset + (interval - 1)) / interval ↔
      offset + interval * k < duration := by
  constructor
  · intro h
    have h2 : (k + 1) * interval ≤ duration - offset + (interval - 1) :=
      (Nat.le_div_iff_mul_le (by omega)).mp h
    rw [Nat.succ_mul] at h2
    rw [Nat.mul_comm interval k]
    generalize hK : k * interval = K at h2 ⊢
    omega
  · intro h
    rw [Nat.mul_comm interval k] at h
    have h5 : k * interval + interval ≤ duration - offset + (interval - 1) := by
      generalize hK : k * interval = K at h ⊢
      omega
    have h6 : (k + 1) * interval ≤ duration - offset + (interval - 1) := by
      rw [Nat.succ_mul]
      exact h5
    have h7 : k + 1 ≤ (duration - offset + (interval - 1)) / interval :=
      (Nat.le_div_iff_mul_le (by omega)).mpr h6
    omega

theorem chain_lt_range' (s n step : Nat) (h : 1 ≤ step) :
    List.Chain' (· < ·) (List.range' s n step) := by
  induction n generalizing s with
  | zero => simp
  | succ n ih =>
    rw [List.range'_succ]
    cases n with
    | zero => simp
    | succ n' =>
      rw [List.range'_succ, List.chain'_cons]
      refine ⟨by omega, ?_⟩
      rw [← List.range'_succ]
      exact ih (s + step)

/-- C8 (amended): for interval ≥ 1 the sampled sequence consists exactly of
the values offset + k*interval that are strictly below duration, in strictly
increasing order; it is empty when offset ≥ duration; Sample(95,10,0) is
[0,10,...,90]; and Sample(5,10,0) is [0] (one sample at the offset), not []
as the claim stated. -/
theorem C8_sampler (duration interval offset : Nat) (hi : 1 ≤ interval) :
    (∀ x, x ∈ sample duration interval offset ↔
      (∃ k, x = offset + interval * k) ∧ x < duration) ∧
    List.Chain' (· < ·) (sample duration interval offset) ∧
    (duration ≤ offset → sample duration interval offset = []) ∧
    sample 95 10 0 = [0, 10, 20, 30, 40, 50, 60, 70, 80, 90] ∧
    sample 5 10 0 = [0] := by
  refine ⟨?_, ?_, ?_, by decide, by decide⟩
  · intro x
    rw [sample, List.mem_range']
    constructor
    · rintro ⟨k, hk, hx⟩
      subst hx
      exact ⟨⟨k, rfl⟩, (sample_count_iff duration interval offset k hi).mp hk⟩
    · rintro ⟨⟨k, hx⟩, hlt⟩
      subst hx
      exact ⟨k, (sample_count_iff duration interval offset k hi).mpr hlt, rfl⟩
  · exact chain_lt_range' offset _ interval hi
  · intro hle
    rw [sample, Nat.div_eq_of_lt (by omega)]
    rfl

/-- Counterexample to C8 as stated: the claim requires Sample(5,10,0) = [],
but range(0, 5, 10) contains 0, so one frame (at second 0) is sampled. -/
theorem C8_counterexample : sample 5 10 0 ≠ [] := by decide

/-- Witness for C8 at interval 10. -/
theorem C8_sampler_witness :
    1 ≤ 10 ∧ sample 95 10 0 = [0, 10, 20, 30, 40, 50, 60, 70, 80, 90] :=
  ⟨by omega, (C8_sampler 95 10 0 (by omega)).2.2.2.1⟩

/- bifgen.py main: width is recomputed from the probed aspect ratio with
   identical expressions on the two branches of the aspect>1 conditional:
   if metadata aspect > 1 then width = int(height * aspect) else
   width = int(height * aspect). Python's int() truncates toward zero,
   which is Int.tdiv on the rational's numerator and denominator. -/

def pyInt (q : ℚ) : Int := Int.tdiv q.num q.den

def aspectWidth (height : Nat) (aspect : ℚ) : Int :=
  if 1 < aspect then pyInt ((height : ℚ) * aspect) else pyInt ((height : ℚ) * aspect)

/-- C9: the two branches of the aspect>1 conditional in main compute the same
value, so the conditional has no observable effect and the target width
always equals int(height * aspect). -/
theorem C9_aspect_branch (height : Nat) (aspect : ℚ) :
    aspectWidth height aspect = pyInt ((height : ℚ) * aspect) := by
  rw [aspectWidth]
  split <;> rfl

/- bifgen.py extract_images / extract_images_ffmpeg control flow. The
   external observations (whether OpenCV opens the source, the surviving
   per-timestamp results of the parallel pass in completion order,
   whether ffmpeg is on PATH, whether the ffmpeg subprocess exits
   cleanly, and the frame files it leaves) are abstracted as an
   environment record. -/

def tsLE (a b : Nat × List Nat) : Prop := a.1 ≤ b.1

instance : DecidableRel tsLE := fun a b => Nat.decLe a.1 b.1

instance : IsTotal (Nat × List Nat) tsLE := ⟨fun a b => Nat.le_total a.1 b.1⟩

instance : IsTrans (Nat × List Nat) tsLE := ⟨fun _ _ _ h1 h2 => Nat.le_trans h1 h2⟩

/- images.sort(key=lambda x: x[0]) — a stable sort by timestamp. -/

def sortImages (l : List (Nat × List Nat)) : List (Nat × List Nat) :=
  List.insertionSort tsLE l

structure PipelineEnv where
  primaryOpens : Bool
  primaryResults : List (Nat × List Nat)
  ffmpegPresent : Bool
  ffmpegRuns : Bool
  ffmpegFrames : List (List Nat)

def extract_images_ffmpeg (e : PipelineEnv) : List (List Nat) :=
  if e.ffmpegPresent = false then []
  else if e.ffmpegRuns = false then []
  else e.ffmpegFrames

def extract_images (e : PipelineEnv) : List (List Nat) :=
  if e.primaryOpens = false then extract_images_ffmpeg e
  else if e.primaryResults = [] then extract_images_ffmpeg e
  else (sortImages e.primaryResults).map Prod.snd

theorem sortImages_ne_nil (l : List (Nat × List Nat)) (h : l ≠ []) : sortImages l ≠ [] := by
  intro hc
  have hp := List.perm_insertionSort tsLE l
  rw [sortImages] at hc
  rw [hc] at hp
  exact h hp.symm.eq_nil

/-- C4: the pipeline uses the ffmpeg fallback exactly when the primary
decoder cannot open the source or the primary parallel pass yields zero
results (otherwise it returns the sorted primary results); an absent
fallback tool makes the fallback yield nothing, so the run then ends empty
(NoFramesExtracted); and the run ends empty if and only if the fallback
condition holds and the fallback itself yields nothing — i.e. both paths
together produced no frames. -/
theorem C4_fallback (e : PipelineEnv) :
    ((e.primaryOpens = false ∨ e.primaryResults = []) →
      extract_images e = extract_images_ffmpeg e) ∧
    (e.primaryOpens = true → e.primaryResults ≠ [] →
      extract_images e = (sortImages e.primaryResults).map Prod.snd) ∧
    (e.ffmpegPresent = false → extract_images_ffmpeg e = []) ∧
    (extract_images e = [] ↔
      (e.primaryOpens = false ∨ e.primaryResults = []) ∧ extract_images_ffmpeg e = []) := by
  have hfb : (e.primaryOpens = false ∨ e.primaryResults = []) →
      extract_images e = extract_images_ffmpeg e := by
    intro h
    rw [extract_images]
    rcases h with h | h
    · rw [if_pos h]
    · by_cases ho : e.primaryOpens = false
      · rw [if_pos ho]
      · rw [if_neg ho, if_pos h]
  have hpc : e.primaryOpens = true → e.primaryResults ≠ [] →
      extract_images e = (sortImages e.primaryResults).map Prod.snd := by
    intro h1 h2
    rw [extract_images, if_neg (by rw [h1]; simp), if_neg h2]
  have habs : e.ffmpegPresent = false → extract_images_ffmpeg e = [] := by
    intro h
    rw [extract_images_ffmpeg, if_pos h]
  refine ⟨hfb, hpc, habs, ?_⟩
  constructor
  · intro hempty
    by_cases hcond : e.primaryOpens = false ∨ e.primaryResults = []
    · refine ⟨hcond, ?_⟩
      rw [← hfb hcond]
      exact hempty
    · push_neg at hcond
      obtain ⟨ho, hr⟩ := hcond
      have h1 : e.primaryOpens = true := by
        cases hpo : e.primaryOpens
        · exact absurd hpo ho
        · rfl
      rw [hpc h1 hr] at hempty
      exact absurd (List.map_eq_nil_iff.mp hempty) (sortImages_ne_nil e.primaryResults hr)
  · rintro ⟨hcond, hff⟩
    rw [hfb hcond, hff]

/-- Witness for C4: a source the primary decoder cannot open falls back, and
with ffmpeg absent the fallback yields nothing. -/
theorem C4_fallback_witness :
    extract_images ⟨false, [], true, true, [[5]]⟩ =
      extract_images_ffmpeg ⟨false, [], true, true, [[5]]⟩ ∧
    extract_images_ffmpeg ⟨true, [], false, true, [[5]]⟩ = [] :=
  ⟨(C4_fallback ⟨false, [], true, true, [[5]]⟩).1 (Or.inl rfl),
    (C4_fallback ⟨true, [], false, true, [[5]]⟩).2.2.1 rfl⟩

/-- C5: for any two completion orders (permutations) of the same surviving
job results with pairwise-distinct sampled timestamps, the pipeline's sort
step produces a sequence strictly increasing by timestamp, and the returned
JPEG buffer sequence is identical for both completion orders. -/
theorem C5_ordering (jobs l1 l2 : List (Nat × List Nat))
    (hnd : (jobs.map Prod.fst).Nodup)
    (h1 : List.Perm l1 jobs) (h2 : List.Perm l2 jobs) :
    List.Pairwise (fun a b : Nat × List Nat => a.1 < b.1) (sortImages l1) ∧
    sortImages l1 = sortImages l2 ∧
    (sortImages l1).map Prod.snd = (sortImages l2).map Prod.snd := by
  have key : ∀ l : List (Nat × List Nat), List.Perm l jobs →
      List.Pairwise (fun a b : Nat × List Nat => a.1 < b.1) (sortImages l) := by
    intro l hl
    have hs : List.Sorted tsLE (sortImages l) := List.sorted_insertionSort tsLE l
    have hperm : List.Perm (sortImages l) jobs := (List.perm_insertionSort tsLE l).trans hl
    have hnd' : ((sortImages l).map Prod.fst).Nodup := (hperm.map Prod.fst).nodup_iff.mpr hnd
    rw [List.Nodup, List.pairwise_map] at hnd'
    exact (hs.and hnd').imp fun h => Nat.lt_of_le_of_ne h.1 h.2
  have hp1 := key l1 h1
  have hp2 := key l2 h2
  have heq : sortImages l1 = sortImages l2 := by
    haveI : IsAntisymm (Nat × List Nat) (fun a b : Nat × List Nat => a.1 < b.1) :=
      ⟨fun a b hab hba => absurd (Nat.lt_trans hab hba) (Nat.lt_irrefl _)⟩
    exact List.eq_of_perm_of_sorted
      (((List.perm_insertionSort tsLE l1).trans h1).trans
        (((List.perm_insertionSort tsLE l2).trans h2).symm)) hp1 hp2
  exact ⟨hp1, heq, by rw [heq]⟩

/-- Witness for C5: two completion orders of the jobs (0,[1]) and (10,[2]). -/
theorem C5_ordering_witness :
    (([(0, [1]), (10, [2])] : List (Nat × List Nat)).map Prod.fst).Nodup ∧
    List.Pairwise (fun a b : Nat × List Nat => a.1 < b.1)
      (sortImages [(10, [2]), (0, [1])]) ∧
    (sortImages [(10, [2]), (0, [1])]).map Prod.snd =
      (sortImages [(0, [1]), (10, [2])]).map Prod.snd := by
  have hnd : (([(0, [1]), (10, [2])] : List (Nat × List Nat)).map Prod.fst).Nodup := by
    simp
  have h1 : List.Perm [(10, [2]), (0, [1])] ([(0, [1]), (10, [2])] : List (Nat × List Nat)) :=
    List.Perm.swap (0, [1]) (10, [2]) []
  have h2 : List.Perm [(0, [1]), (10, [2])] ([(0, [1]), (10, [2])] : List (Nat × List Nat)) :=
    List.Perm.refl _
  have h := C5_ordering [(0, [1]), (10, [2])] [(10, [2]), (0, [1])] [(0, [1]), (10, [2])]
    hnd h1 h2
  exact ⟨hnd, h.1, h.2.2⟩

/- validate_bif.py validator. Pixel data is modelled as a flat list of
   rational channel values; calculate_mse sums squared channel
   differences and divides by shape[0]*shape[1] (pixel count, not
   channel count) of its first argument, exactly as the numpy code
   does. Decoding a payload, reading a source frame and resizing are
   external (OpenCV) operations, abstracted as oracles in the
   environment. -/

structure Image where
  h : Nat
  w : Nat
  pix : List ℚ

def calculate_mse (a b : Image) : ℚ :=
  (List.zipWith (fun x y => (x - y) ^ 2) a.pix b.pix).sum / ((a.h : ℚ) * (a.w : ℚ))

structure ValidateEnv where
  numImages : Nat
  intervalMs : Nat
  threshold : ℚ
  samples : List Nat
  decodeJpeg : Nat → Option Image
  readFrame : Nat → Option Image
  resize : Image → Nat → Nat → Image

/- One loop body of validate_bif: decode failure counts as a mismatch,
   frame-read failure counts as a mismatch, otherwise the frame is
   resized to the BIF image's dimensions and the sample mismatches when
   mse < threshold fails, i.e. threshold ≤ mse. -/

def sampleIsMismatch (e : ValidateEnv) (i : Nat) : Bool :=
  match e.decodeJpeg i with
  | none => true
  | some bifImage =>
    match e.readFrame (i * e.intervalMs) with
    | none => true
    | some frame =>
      decide (e.threshold ≤ calculate_mse bifImage (e.resize frame bifImage.w bifImage.h))

def validateLoop (e : ValidateEnv) : List Nat → Nat → Nat
  | [], m => m
  | i :: rest, m => validateLoop e rest (if sampleIsMismatch e i then m + 1 else m)

def validate_bif (e : ValidateEnv) : Bool :=
  if e.numImages = 0 then true else decide (validateLoop e e.samples 0 = 0)

theorem validateLoop_counts (e : ValidateEnv) (l : List Nat) (m : Nat) :
    validateLoop e l m = m + l.countP (fun i => sampleIsMismatch e i) := by
  induction l generalizing m with
  | nil => simp [validateLoop]
  | cons i rest ih =>
    rw [validateLoop, ih, List.countP_cons]
    by_cases h : sampleIsMismatch e i = true
    · simp [h]
      omega
    · simp [h]

/-- C6: the validator trivially passes when the decoded BIF has zero
entries; a selected sample counts as a mismatch exactly when its JPEG
payload fails to decode, or the source frame at index*interval_ms cannot be
read, or the MSE of the BIF image against the resized frame (sum of squared
channel differences divided by the pixel count of the BIF image) is at
least the threshold; the run processes every selected sample (no failure
aborts the rest) and passes if and only if zero mismatches occurred. -/
theorem C6_validator (e : ValidateEnv) :
    (validate_bif e = true ↔
      (e.numImages = 0 ∨ e.samples.countP (fun i => sampleIsMismatch e i) = 0)) ∧
    (∀ i, sampleIsMismatch e i = true ↔
      (e.decodeJpeg i = none ∨
        ∃ a, e.decodeJpeg i = some a ∧
          (e.readFrame (i * e.intervalMs) = none ∨
            ∃ b, e.readFrame (i * e.intervalMs) = some b ∧
              e.threshold ≤ calculate_mse a (e.resize b a.w a.h)))) ∧
    (∀ l m, validateLoop e l m = m + l.countP (fun i => sampleIsMismatch e i)) := by
  refine ⟨?_, ?_, fun l m => validateLoop_counts e l m⟩
  · rw [validate_bif]
    by_cases h : e.numImages = 0
    · simp [h]
    · rw [if_neg h, validateLoop_counts]
      simp [h]
  · intro i
    rw [sampleIsMismatch]
    cases hd : e.decodeJpeg i with
    | none => simp
    | some a =>
      cases hr : e.readFrame (i * e.intervalMs) with
      | none => simp
      | some b => simp

/- Quantities the preview reader derives from a stream: the image count
   field and the offset field of the last index-table entry. -/

